import Mathlib

/-!
A shallow embedding of the stackless coroutine implementation in
`coroutine.h` (C99, a variant of the Boost.Asio / Duff's-device stackless
coroutine) and of the thin C++ wrapper in `coroutine.hpp`.

The C implementation stores a single integer label (`co_ctx_t.label`) and
(ab)uses a `switch` statement to jump to the point following the last
`co_yield` / `co_fork`.  We embed the *expanded* control flow of the macros:

* a coroutine body is a `List (Item σ)` over an external state `σ`:
  ordinary statements, the three `co_yield` forms, and `co_fork`;
* `runItems` executes items forward from a given point, exactly following
  the expansion of `co_reenter` / `co_yield` / `co_fork`:
  - falling past the end of the list models the `for` increment of
    `co_reenter` (`*_co_label_ = -1`),
  - `co_yield <expr>` stores the label first, then evaluates the
    expression (which therefore observes the freshly stored label), then
    exits the region via `goto _co_break_` (no increment, label kept),
  - `co_yield continue` takes the same `goto _co_break_` path,
  - `co_yield break` exits via `goto _co_continue_`, whose `continue`
    triggers the `for` increment `*_co_label_ = -1`,
  - `co_fork <expr>` runs the loop
    `for (*_co_label_ = -(label)-1;; *_co_label_ = (label))` whose guard in
    the source is `_co_label_ == (label)` — it compares the *pointer*
    `_co_label_` with the integer label, not the stored value
    `*_co_label_`.  We model the pointer's value by a parameter `p`, and
    the loop by `co_fork_loop` with explicit fuel, since with `p ≠ l` the
    guard never fires and the loop does not terminate;
* `dispatchItems` models the `switch (*_co_label_)` dispatch on re-entry:
  each `co_yield` form carries a `case (label):` that resumes right after
  the yield, each `co_fork` carries `case -(label)-1:` that resumes right
  after the fork with the label unchanged; if no case matches, control
  falls past the switch and the `for` increment sets the label to `-1`;
* `co_reenter` is one invocation of the annotated region: the `for`
  condition `*_co_label_ != -1` guards entry, label `0` starts at the top
  (the `case 0:` at the head of the body), and any other label dispatches.

Statements and yield/fork expressions receive the current label value,
because in the source they can read `*_co_label_` via `co_is_child()` and
can copy the whole context.
-/

/-- The coroutine context `co_ctx_t`: a single stored label
(`CO_LABEL_TYPE label`), i.e. the program counter of the coroutine. -/
structure co_ctx_t where
  label : Int
  deriving DecidableEq

/-- `CO_CTX_INIT`: the static initializer `{ 0 }`. -/
def CO_CTX_INIT : co_ctx_t := ⟨0⟩

/-- `co_restart(ctx)`: `(ctx)->label = 0`. -/
def co_restart (_ctx : co_ctx_t) : co_ctx_t := ⟨0⟩

/-- `co_is_ready(ctx)`: `(ctx)->label == -1`. -/
def co_is_ready (ctx : co_ctx_t) : Bool := ctx.label == -1

/-- `co_is_child()`: `*_co_label_ < -1`, a function of the current label
value in scope. -/
def co_is_child (lab : Int) : Bool := lab < -1

/-- `co_is_parent()`: `!co_is_child()`. -/
def co_is_parent (lab : Int) : Bool := !co_is_child lab

/-- One item of a coroutine body inside `co_reenter { ... }`.  Statements
and the expressions attached to `co_yield` / `co_fork` receive the current
label value (they can call `co_is_child()` and copy the context). -/
inductive Item (σ : Type) where
  | stmt (f : Int → σ → σ)
  | co_yield (l : Int) (f : Int → σ → σ)
  | co_yield_continue (l : Int)
  | co_yield_break (l : Int)
  | co_fork (l : Int) (f : Int → σ → σ)

/-- Result of running (part of) an invocation: either control left the
construct normally with a final label and state, or the fuel for the
`co_fork` loop ran out (the loop in the source does not terminate on the
forward path, see `co_fork_loop`). -/
inductive RunResult (σ : Type) where
  | done (label : Int) (s : σ)
  | outOfFuel (s : σ)
  deriving DecidableEq

/-- Is the run completed (control returned to the caller)? -/
def RunResult.isDone {σ : Type} : RunResult σ → Bool
  | .done _ _ => true
  | .outOfFuel _ => false

/-- The loop of `co_fork <expr>`:
`for (*_co_label_ = -(label)-1;; *_co_label_ = (label)) if (_co_label_ == (label)) { case -(label)-1: break; } else <expr>;`
entered with `lab = -l-1` on the forward path.  `p` is the value of the
pointer `_co_label_`, which the source's guard compares against the
integer label (sic — not the stored value `*_co_label_`).  The guard is
tested before each iteration; when it is false, `<expr>` runs (observing
the current stored label) and the `for` increment stores `l`. -/
def co_fork_loop {σ : Type} (p l : Int) (f : Int → σ → σ) :
    Nat → Int → σ → RunResult σ
  | 0, _, s => .outOfFuel s
  | fuel + 1, lab, s =>
    if p = l then .done lab s else co_fork_loop p l f fuel l (f lab s)

/-- Forward execution of the remaining items of the body.  Reaching the
end of the list is the normal fall-through of `co_reenter`, whose `for`
increment sets the label to `-1`. -/
def runItems {σ : Type} (p : Int) (fuel : Nat) :
    List (Item σ) → Int → σ → RunResult σ
  | [], _, s => .done (-1) s
  | .stmt f :: rest, lab, s => runItems p fuel rest lab (f lab s)
  | .co_yield l f :: _, _, s => .done l (f l s)
  | .co_yield_continue l :: _, _, s => .done l s
  | .co_yield_break _ :: _, _, s => .done (-1) s
  | .co_fork l f :: rest, _, s =>
    match co_fork_loop p l f fuel (-l - 1) s with
    | .outOfFuel s' => .outOfFuel s'
    | .done lab' s' => runItems p fuel rest lab' s'

/-- The `switch (*_co_label_)` dispatch of `co_reenter` for a nonzero,
non-`-1` entry label: scan for the matching `case`; a match at a
`co_yield` resumes right after that yield, a match at the
`case -(label)-1:` inside `co_fork` resumes right after the fork (label
unchanged).  No match anywhere: control falls past the switch and the
`for` increment sets the label to `-1`. -/
def dispatchItems {σ : Type} (p : Int) (fuel : Nat) :
    List (Item σ) → Int → σ → RunResult σ
  | [], _, s => .done (-1) s
  | .stmt _ :: rest, lab, s => dispatchItems p fuel rest lab s
  | .co_yield l _ :: rest, lab, s =>
    if lab = l then runItems p fuel rest lab s
    else dispatchItems p fuel rest lab s
  | .co_yield_continue l :: rest, lab, s =>
    if lab = l then runItems p fuel rest lab s
    else dispatchItems p fuel rest lab s
  | .co_yield_break l :: rest, lab, s =>
    if lab = l then runItems p fuel rest lab s
    else dispatchItems p fuel rest lab s
  | .co_fork l _ :: rest, lab, s =>
    if lab = -l - 1 then runItems p fuel rest lab s
    else dispatchItems p fuel rest lab s

/-- One invocation of the annotated region `co_reenter (ctx) { body }`.
The `for` condition `*_co_label_ != -1` guards entry; label `0` falls into
the `case 0:` at the top of the body; any other label dispatches through
the switch. -/
def co_reenter {σ : Type} (p : Int) (fuel : Nat) (body : List (Item σ))
    (ctx : co_ctx_t) (s : σ) : RunResult σ :=
  if ctx.label = -1 then .done (-1) s
  else if ctx.label = 0 then runItems p fuel body 0 s
  else dispatchItems p fuel body ctx.label s

/-- `n` successive invocations of the region on the same context. -/
def invokeN {σ : Type} (p : Int) (fuel : Nat) (body : List (Item σ)) :
    Nat → co_ctx_t → σ → RunResult σ
  | 0, ctx, s => .done ctx.label s
  | n + 1, ctx, s =>
    match co_reenter p fuel body ctx s with
    | .outOfFuel s' => .outOfFuel s'
    | .done lab' s' => invokeN p fuel body n ⟨lab'⟩ s'

/-- The C++ `Coroutine` wrapper: owns one `co_ctx_t` member `ctx_`. -/
structure Coroutine where
  ctx_ : co_ctx_t
  deriving DecidableEq

/-- A default-constructed `Coroutine`: `co_ctx_t ctx_ CO_CTX_INIT`. -/
def Coroutine.mkDefault : Coroutine := ⟨CO_CTX_INIT⟩

/-- `Coroutine::restart()`: `co_restart(this)` through `to_co_ctx`. -/
def Coroutine.restart (c : Coroutine) : Coroutine := ⟨co_restart c.ctx_⟩

/-- `Coroutine::is_ready()`: `ctx_.label == -1`. -/
def Coroutine.is_ready (c : Coroutine) : Bool := c.ctx_.label == -1

/-- `Coroutine::is_child()`: `ctx_.label < -1`. -/
def Coroutine.is_child (c : Coroutine) : Bool := c.ctx_.label < -1

/-- `Coroutine::is_parent()`: `!is_child()`. -/
def Coroutine.is_parent (c : Coroutine) : Bool := !c.is_child

/-- A block of plain statements built from tags: tag `x` becomes the
statement `fun lab s => g x lab s`. -/
def stmtSeg {α σ : Type} (g : α → Int → σ → σ) (a : List α) : List (Item σ) :=
  a.map (fun x => Item.stmt (g x))

/-- Logging statements: tag `x` appends `x` to the log, ignoring the
label. -/
def segItems (a : List Int) : List (Item (List Int)) :=
  stmtSeg (fun x _ s => s ++ [x]) a

/-- Observing statements: tag `x` appends `(x, current label)` to the log,
so the log records the value `co_is_child()` reads at each statement. -/
def obsSeg (a : List Int) : List (Item (List (Int × Int))) :=
  stmtSeg (fun x lab s => s ++ [(x, lab)]) a

theorem foldl_append_map {α β : Type} (h : α → β) (a : List α) :
    ∀ t : List β, a.foldl (fun acc x => acc ++ [h x]) t = t ++ a.map h := by
  induction a with
  | nil => intro t; simp
  | cons x a ih => intro t; simp [ih]

theorem runItems_stmtSeg {α σ : Type} (p : Int) (fuel : Nat)
    (g : α → Int → σ → σ) (a : List α) (rest : List (Item σ)) :
    ∀ (lab : Int) (s : σ),
      runItems p fuel (stmtSeg g a ++ rest) lab s =
        runItems p fuel rest lab (a.foldl (fun acc x => g x lab acc) s) := by
  induction a with
  | nil => intro lab s; simp [stmtSeg]
  | cons x a ih =>
    intro lab s
    simp only [stmtSeg, List.map_cons, List.cons_append, runItems]
    exact ih lab (g x lab s)

theorem dispatchItems_stmtSeg {α σ : Type} (p : Int) (fuel : Nat)
    (g : α → Int → σ → σ) (a : List α) (rest : List (Item σ))
    (lab : Int) (s : σ) :
    dispatchItems p fuel (stmtSeg g a ++ rest) lab s =
      dispatchItems p fuel rest lab s := by
  induction a with
  | nil => simp [stmtSeg]
  | cons x a ih =>
    simp only [stmtSeg, List.map_cons, List.cons_append, dispatchItems]
    exact ih

theorem runItems_segItems (p : Int) (fuel : Nat) (a : List Int)
    (rest : List (Item (List Int))) (lab : Int) (s : List Int) :
    runItems p fuel (segItems a ++ rest) lab s =
      runItems p fuel rest lab (s ++ a) := by
  rw [segItems, runItems_stmtSeg]
  have := foldl_append_map (fun x : Int => x) a s
  simp only [List.map_id'] at this
  rw [this]

theorem runItems_obsSeg (p : Int) (fuel : Nat) (a : List Int)
    (rest : List (Item (List (Int × Int)))) (lab : Int)
    (s : List (Int × Int)) :
    runItems p fuel (obsSeg a ++ rest) lab s =
      runItems p fuel rest lab (s ++ a.map (fun x => (x, lab))) := by
  rw [obsSeg, runItems_stmtSeg, foldl_append_map (fun x : Int => (x, lab)) a s]

/-- A region body made of an initial segment `s0` of logging statements
and then, for each pair `(l, seg)`, a plain `co_yield;` carrying label `l`
followed by the segment `seg`. -/
def mkBody (s0 : List Int) : List (Int × List Int) → List (Item (List Int))
  | [] => segItems s0
  | (l, seg) :: ps =>
    segItems s0 ++ Item.co_yield l (fun _ t => t) :: mkBody seg ps

/-- The label stored by the first yield of the suffix; `-1` when the
region falls through past the end instead. -/
def headLabel : List (Int × List Int) → Int
  | [] => -1
  | (l, _) :: _ => l

/-- Concatenation of the segments of a yield/segment list. -/
def joinSegs (ps : List (Int × List Int)) : List Int :=
  (ps.map Prod.snd).flatten

theorem runItems_mkBody (p : Int) (fuel : Nat) (s0 : List Int)
    (ps : List (Int × List Int)) (lab : Int) (t : List Int) :
    runItems p fuel (mkBody s0 ps) lab t = .done (headLabel ps) (t ++ s0) := by
  cases ps with
  | nil =>
    rw [mkBody, ← List.append_nil (segItems s0), runItems_segItems]
    simp [runItems, headLabel]
  | cons hd ps =>
    obtain ⟨l, seg⟩ := hd
    rw [mkBody, runItems_segItems]
    simp [runItems, headLabel]

theorem nodup_middle_not_mem_left {α : Type} {xs ys : List α} {a : α}
    (h : (xs ++ a :: ys).Nodup) : a ∉ xs := by
  intro hmem
  rcases List.nodup_append.mp h with ⟨h1, h2, h3⟩
  exact h3 hmem (List.mem_cons_self a ys)

theorem dispatchItems_mkBody (p : Int) (fuel : Nat) :
    ∀ (ps1 : List (Int × List Int)) (s0 seg : List Int) (l : Int)
      (ps2 : List (Int × List Int)) (s : List Int),
      l ∉ ps1.map Prod.fst →
      dispatchItems p fuel (mkBody s0 (ps1 ++ (l, seg) :: ps2)) l s =
        runItems p fuel (mkBody seg ps2) l s := by
  intro ps1
  induction ps1 with
  | nil =>
    intro s0 seg l ps2 s h
    rw [List.nil_append, mkBody, segItems, dispatchItems_stmtSeg]
    simp [dispatchItems]
  | cons hd ps1 ih =>
    obtain ⟨l1, seg1⟩ := hd
    intro s0 seg l ps2 s h
    simp only [List.map_cons, List.mem_cons, not_or] at h
    rw [List.cons_append, mkBody, segItems, dispatchItems_stmtSeg]
    simp only [dispatchItems, if_neg h.1]
    exact ih seg1 seg l ps2 s h.2

theorem co_reenter_pos {σ : Type} (p : Int) (fuel : Nat)
    (body : List (Item σ)) (l : Int) (hl : 0 < l) (s : σ) :
    co_reenter p fuel body ⟨l⟩ s = dispatchItems p fuel body l s := by
  rw [co_reenter]
  rw [if_neg (by simp; omega), if_neg (by simp; omega)]


theorem invokeN_zero {σ : Type} (p : Int) (fuel : Nat)
    (body : List (Item σ)) (ctx : co_ctx_t) (s : σ) :
    invokeN p fuel body 0 ctx s = .done ctx.label s := rfl

theorem invokeN_done_step {σ : Type} {p : Int} {fuel : Nat}
    {body : List (Item σ)} {n : Nat} {ctx : co_ctx_t} {s : σ}
    {lab' : Int} {s' : σ}
    (h : co_reenter p fuel body ctx s = .done lab' s') :
    invokeN p fuel body (n + 1) ctx s = invokeN p fuel body n ⟨lab'⟩ s' := by
  simp [invokeN, h]

theorem invokeN_mkBody_chain (p : Int) (fuel : Nat) :
    ∀ (ps2 ps1 : List (Int × List Int)) (s0 seg : List Int) (l : Int)
      (t : List Int),
      (∀ x ∈ (ps1 ++ (l, seg) :: ps2).map Prod.fst, 0 < x) →
      ((ps1 ++ (l, seg) :: ps2).map Prod.fst).Nodup →
      invokeN p fuel (mkBody s0 (ps1 ++ (l, seg) :: ps2)) (ps2.length + 1)
          ⟨l⟩ t =
        .done (-1) (t ++ seg ++ joinSegs ps2) := by
  intro ps2
  induction ps2 with
  | nil =>
    intro ps1 s0 seg l t hpos hnd
    have hl : (0:Int) < l := hpos l (by simp)
    have hnotmem : l ∉ ps1.map Prod.fst := by
      rw [List.map_append, List.map_cons] at hnd
      exact nodup_middle_not_mem_left hnd
    have hco : co_reenter p fuel (mkBody s0 (ps1 ++ [(l, seg)])) ⟨l⟩ t =
        .done (-1) (t ++ seg) := by
      rw [co_reenter_pos p fuel _ l hl,
        dispatchItems_mkBody p fuel ps1 s0 seg l [] t hnotmem,
        runItems_mkBody]
      rfl
    rw [List.length_nil, zero_add, invokeN_done_step hco, invokeN_zero]
    simp [joinSegs]
  | cons hd ps2 ih =>
    obtain ⟨l2, seg2⟩ := hd
    intro ps1 s0 seg l t hpos hnd
    have hl : (0:Int) < l := hpos l (by simp)
    have hnotmem : l ∉ ps1.map Prod.fst := by
      rw [List.map_append, List.map_cons] at hnd
      exact nodup_middle_not_mem_left hnd
    have hco : co_reenter p fuel
        (mkBody s0 (ps1 ++ (l, seg) :: (l2, seg2) :: ps2)) ⟨l⟩ t =
        .done l2 (t ++ seg) := by
      rw [co_reenter_pos p fuel _ l hl,
        dispatchItems_mkBody p fuel ps1 s0 seg l ((l2, seg2) :: ps2) t
          hnotmem,
        runItems_mkBody]
      rfl
    rw [List.length_cons, invokeN_done_step hco]
    have hre : ps1 ++ (l, seg) :: (l2, seg2) :: ps2 =
        (ps1 ++ [(l, seg)]) ++ (l2, seg2) :: ps2 := by simp
    rw [hre] at hnd hpos ⊢
    rw [ih (ps1 ++ [(l, seg)]) s0 seg2 l2 (t ++ seg) hpos hnd]
    simp [joinSegs]

theorem co_reenter_zero {σ : Type} (p : Int) (fuel : Nat)
    (body : List (Item σ)) (s : σ) :
    co_reenter p fuel body ⟨0⟩ s = runItems p fuel body 0 s := by
  simp [co_reenter]

/-- C1: for a region with suspend points `P1 < ... < Pk` (distinct positive
labels) separating statement segments, (a) invoking with `marker == N`
transfers control to the statement right after suspend point `N`,
executing exactly the following segment and none of the statements before
it, and (b) invoking `k+1` times from a fresh context visits every segment
exactly once, in body order, and the last invocation leaves
`marker == -1`. -/
theorem c1_resume_at_exact_point (p : Int) (fuel : Nat) (s0 : List Int)
    (ps : List (Int × List Int)) (t : List Int)
    (hpos : ∀ x ∈ ps.map Prod.fst, 0 < x)
    (hnd : (ps.map Prod.fst).Nodup) :
    (∀ (ps1 : List (Int × List Int)) (l : Int) (seg : List Int)
       (ps2 : List (Int × List Int)), ps = ps1 ++ (l, seg) :: ps2 →
      co_reenter p fuel (mkBody s0 ps) ⟨l⟩ t =
        .done (headLabel ps2) (t ++ seg)) ∧
    invokeN p fuel (mkBody s0 ps) (ps.length + 1) ⟨0⟩ t =
      .done (-1) (t ++ s0 ++ joinSegs ps) := by
  constructor
  · intro ps1 l seg ps2 hdec
    subst hdec
    have hl : (0:Int) < l := hpos l (by simp)
    have hnotmem : l ∉ ps1.map Prod.fst := by
      rw [List.map_append, List.map_cons] at hnd
      exact nodup_middle_not_mem_left hnd
    rw [co_reenter_pos p fuel _ l hl,
      dispatchItems_mkBody p fuel ps1 s0 seg l ps2 t hnotmem,
      runItems_mkBody]
  · cases ps with
    | nil =>
      have hco : co_reenter p fuel (mkBody s0 []) ⟨0⟩ t =
          .done (-1) (t ++ s0) := by
        rw [co_reenter_zero, runItems_mkBody]; rfl
      rw [List.length_nil, zero_add, invokeN_done_step hco, invokeN_zero]
      simp [joinSegs]
    | cons hd ps' =>
      obtain ⟨l1, seg1⟩ := hd
      have hco : co_reenter p fuel (mkBody s0 ((l1, seg1) :: ps')) ⟨0⟩ t =
          .done l1 (t ++ s0) := by
        rw [co_reenter_zero, runItems_mkBody]; rfl
      rw [List.length_cons, invokeN_done_step hco]
      have := invokeN_mkBody_chain p fuel ps' [] s0 seg1 l1 (t ++ s0)
        (by simpa using hpos) (by simpa using hnd)
      rw [List.nil_append] at this
      rw [this]
      simp [joinSegs]

/-- C1 witness: a region `[stmt 10; yield 1; stmt 20; yield 2; stmt 30]`
run to completion in three invocations. -/
theorem c1_witness :
    ((∀ x ∈ ([(1, [20]), (2, [30])] : List (Int × List Int)).map Prod.fst,
        0 < x) ∧
      (([(1, [20]), (2, [30])] : List (Int × List Int)).map
        Prod.fst).Nodup) ∧
    ((∀ (ps1 : List (Int × List Int)) (l : Int) (seg : List Int)
        (ps2 : List (Int × List Int)),
        ([(1, [20]), (2, [30])] : List (Int × List Int)) =
          ps1 ++ (l, seg) :: ps2 →
        co_reenter 0 0 (mkBody [10] [(1, [20]), (2, [30])]) ⟨l⟩ [] =
          .done (headLabel ps2) ([] ++ seg)) ∧
      invokeN 0 0 (mkBody [10] [(1, [20]), (2, [30])])
          (([(1, [20]), (2, [30])] : List (Int × List Int)).length + 1)
          ⟨0⟩ [] =
        .done (-1) ([] ++ [10] ++ joinSegs [(1, [20]), (2, [30])])) :=
  ⟨⟨by decide, by decide⟩,
    c1_resume_at_exact_point 0 0 [10] [(1, [20]), (2, [30])] []
      (by decide) (by decide)⟩

/-- C4: once `marker == -1`, an invocation of the region executes no body
statement and leaves both the marker and the external state unchanged,
for any number of repeated invocations. -/
theorem c4_idempotent_termination {σ : Type} (p : Int) (fuel : Nat)
    (body : List (Item σ)) (s : σ) :
    co_reenter p fuel body ⟨-1⟩ s = .done (-1) s ∧
    ∀ n : Nat, invokeN p fuel body n ⟨-1⟩ s = .done (-1) s := by
  have hco : co_reenter p fuel body ⟨-1⟩ s = .done (-1) s := by
    simp [co_reenter]
  refine ⟨hco, ?_⟩
  intro n
  induction n with
  | zero => rfl
  | succ n ih => rw [invokeN_done_step hco]; exact ih

/-- C6: `co_restart` unconditionally sets the marker to `0`, whatever its
prior value, and any number of invocations after a restart behaves exactly
like invocations on a freshly initialized context (`CO_CTX_INIT`). -/
theorem c6_restart_resets {σ : Type} (p : Int) (fuel : Nat)
    (body : List (Item σ)) (ctx : co_ctx_t) (s : σ) :
    (co_restart ctx).label = 0 ∧
    co_restart ctx = CO_CTX_INIT ∧
    co_reenter p fuel body (co_restart ctx) s =
      co_reenter p fuel body CO_CTX_INIT s ∧
    ∀ n : Nat, invokeN p fuel body n (co_restart ctx) s =
      invokeN p fuel body n CO_CTX_INIT s :=
  ⟨rfl, rfl, rfl, fun _ => rfl⟩

/-- C10: the C++ `Coroutine` wrapper forwards exactly to the C interface
on its embedded context, and a default-constructed `Coroutine` has label
`0`, is not ready, and is not a child. -/
theorem c10_wrapper_equiv (c : Coroutine) :
    c.restart.ctx_ = co_restart c.ctx_ ∧
    c.is_ready = co_is_ready c.ctx_ ∧
    c.is_child = co_is_child c.ctx_.label ∧
    c.is_parent = co_is_parent c.ctx_.label ∧
    Coroutine.mkDefault.ctx_.label = 0 ∧
    Coroutine.mkDefault.is_ready = false ∧
    Coroutine.mkDefault.is_child = false :=
  ⟨rfl, rfl, rfl, rfl, rfl, rfl, rfl⟩

theorem runItems_yc_eq {σ : Type} (p : Int) (fuel : Nat) (l : Int)
    (post : List (Item σ)) :
    ∀ (pre : List (Item σ)) (lab : Int) (s : σ),
      runItems p fuel (pre ++ Item.co_yield_continue l :: post) lab s =
        runItems p fuel (pre ++ Item.co_yield l (fun _ t => t) :: post)
          lab s := by
  intro pre
  induction pre with
  | nil => intro lab s; simp [runItems]
  | cons it pre ih =>
    intro lab s
    cases it with
    | stmt f =>
      simp only [List.cons_append, runItems]
      exact ih _ _
    | co_yield l' f => simp [runItems]
    | co_yield_continue l' => simp [runItems]
    | co_yield_break l' => simp [runItems]
    | co_fork l' f =>
      simp only [List.cons_append, runItems]
      cases h : co_fork_loop p l' f fuel (-l' - 1) s with
      | outOfFuel s' => rfl
      | done lab' s' => exact ih _ _

theorem dispatchItems_yc_eq {σ : Type} (p : Int) (fuel : Nat) (l : Int)
    (post : List (Item σ)) :
    ∀ (pre : List (Item σ)) (lab : Int) (s : σ),
      dispatchItems p fuel (pre ++ Item.co_yield_continue l :: post) lab s =
        dispatchItems p fuel
          (pre ++ Item.co_yield l (fun _ t => t) :: post) lab s := by
  intro pre
  induction pre with
  | nil =>
    intro lab s
    simp only [List.nil_append, dispatchItems]
  | cons it pre ih =>
    intro lab s
    cases it with
    | stmt f =>
      simp only [List.cons_append, dispatchItems]
      exact ih _ _
    | co_yield l' f =>
      simp only [List.cons_append, dispatchItems]
      by_cases h : lab = l' <;>
        simp only [h, if_pos, if_neg, if_true, if_false]
      · exact runItems_yc_eq p fuel l post pre l' s
      · exact ih _ _
    | co_yield_continue l' =>
      simp only [List.cons_append, dispatchItems]
      by_cases h : lab = l' <;>
        simp only [h, if_pos, if_neg, if_true, if_false]
      · exact runItems_yc_eq p fuel l post pre l' s
      · exact ih _ _
    | co_yield_break l' =>
      simp only [List.cons_append, dispatchItems]
      by_cases h : lab = l' <;>
        simp only [h, if_pos, if_neg, if_true, if_false]
      · exact runItems_yc_eq p fuel l post pre l' s
      · exact ih _ _
    | co_fork l' f =>
      simp only [List.cons_append, dispatchItems]
      by_cases h : lab = -l' - 1 <;>
        simp only [h, if_pos, if_neg, if_true, if_false]
      · exact runItems_yc_eq p fuel l post pre (-l' - 1) s
      · exact ih _ _

theorem invokeN_congr {σ : Type} {p : Int} {fuel : Nat}
    {b1 b2 : List (Item σ)}
    (h : ∀ (ctx : co_ctx_t) (s : σ),
      co_reenter p fuel b1 ctx s = co_reenter p fuel b2 ctx s) :
    ∀ (n : Nat) (ctx : co_ctx_t) (s : σ),
      invokeN p fuel b1 n ctx s = invokeN p fuel b2 n ctx s := by
  intro n
  induction n with
  | zero => intro ctx s; rfl
  | succ n ih =>
    intro ctx s
    simp only [invokeN]
    rw [h ctx s]
    cases h2 : co_reenter p fuel b2 ctx s with
    | outOfFuel s' => rfl
    | done lab' s' => exact ih _ _

/-- C8: `co_yield continue;` is observably equivalent to a bare
`co_yield;`: for every context, state, and position in a region, a single
invocation and any number of repeated invocations give identical results
when one is replaced by the other. -/
theorem c8_yield_continue_equiv {σ : Type} (p : Int) (fuel : Nat)
    (pre post : List (Item σ)) (l : Int) (ctx : co_ctx_t) (s : σ) :
    co_reenter p fuel (pre ++ Item.co_yield_continue l :: post) ctx s =
      co_reenter p fuel (pre ++ Item.co_yield l (fun _ t => t) :: post)
        ctx s ∧
    ∀ n : Nat,
      invokeN p fuel (pre ++ Item.co_yield_continue l :: post) n ctx s =
        invokeN p fuel (pre ++ Item.co_yield l (fun _ t => t) :: post)
          n ctx s := by
  have hco : ∀ (ctx : co_ctx_t) (s : σ),
      co_reenter p fuel (pre ++ Item.co_yield_continue l :: post) ctx s =
        co_reenter p fuel (pre ++ Item.co_yield l (fun _ t => t) :: post)
          ctx s := by
    intro ctx s
    rw [co_reenter, co_reenter]
    by_cases h1 : ctx.label = -1
    · simp [h1]
    · by_cases h2 : ctx.label = 0
      · simp only [if_neg h1, if_pos h2]
        exact runItems_yc_eq p fuel l post pre 0 s
      · simp only [if_neg h1, if_neg h2]
        exact dispatchItems_yc_eq p fuel l post pre ctx.label s
  exact ⟨hco ctx s, fun n => invokeN_congr hco n ctx s⟩

/-- Is this item an ordinary suspend (`co_yield` or `co_yield continue`)
carrying label `l`?  These are the only exits that leave the marker at
something other than `-1`. -/
def OrdinaryYield {σ : Type} (l : Int) : Item σ → Prop
  | .co_yield l' _ => l' = l
  | .co_yield_continue l' => l' = l
  | _ => False

theorem runItems_exit_class {σ : Type} (p : Int) (fuel : Nat) :
    ∀ (body : List (Item σ)) (lab : Int) (s : σ) (l' : Int) (s' : σ),
      runItems p fuel body lab s = .done l' s' →
      l' = -1 ∨ ∃ it ∈ body, OrdinaryYield l' it := by
  intro body
  induction body with
  | nil =>
    intro lab s l' s' h
    simp only [runItems, RunResult.done.injEq] at h
    exact Or.inl h.1.symm
  | cons it rest ih =>
    intro lab s l' s' h
    cases it with
    | stmt f =>
      simp only [runItems] at h
      rcases ih _ _ _ _ h with h1 | ⟨it, hmem, hy⟩
      · exact Or.inl h1
      · exact Or.inr ⟨it, List.mem_cons_of_mem _ hmem, hy⟩
    | co_yield l f =>
      simp only [runItems, RunResult.done.injEq] at h
      exact Or.inr ⟨Item.co_yield l f, List.mem_cons_self _ _, h.1⟩
    | co_yield_continue l =>
      simp only [runItems, RunResult.done.injEq] at h
      exact Or.inr ⟨Item.co_yield_continue l, List.mem_cons_self _ _, h.1⟩
    | co_yield_break l =>
      simp only [runItems, RunResult.done.injEq] at h
      exact Or.inl h.1.symm
    | co_fork l f =>
      simp only [runItems] at h
      cases hf : co_fork_loop p l f fuel (-l - 1) s with
      | outOfFuel s'' => rw [hf] at h; simp at h
      | done lab'' s'' =>
        rw [hf] at h
        simp only at h
        rcases ih _ _ _ _ h with h1 | ⟨it, hmem, hy⟩
        · exact Or.inl h1
        · exact Or.inr ⟨it, List.mem_cons_of_mem _ hmem, hy⟩

theorem dispatchItems_exit_class {σ : Type} (p : Int) (fuel : Nat) :
    ∀ (body : List (Item σ)) (lab : Int) (s : σ) (l' : Int) (s' : σ),
      dispatchItems p fuel body lab s = .done l' s' →
      l' = -1 ∨ ∃ it ∈ body, OrdinaryYield l' it := by
  intro body
  induction body with
  | nil =>
    intro lab s l' s' h
    simp only [dispatchItems, RunResult.done.injEq] at h
    exact Or.inl h.1.symm
  | cons it rest ih =>
    intro lab s l' s' h
    have step : ∀ (h' : runItems p fuel rest lab s = .done l' s'),
        l' = -1 ∨ ∃ it2 ∈ it :: rest, OrdinaryYield l' it2 := by
      intro h'
      rcases runItems_exit_class p fuel _ _ _ _ _ h' with h1 | ⟨it2, hmem, hy⟩
      · exact Or.inl h1
      · exact Or.inr ⟨it2, List.mem_cons_of_mem _ hmem, hy⟩
    have step2 : ∀ (h' : dispatchItems p fuel rest lab s = .done l' s'),
        l' = -1 ∨ ∃ it2 ∈ it :: rest, OrdinaryYield l' it2 := by
      intro h'
      rcases ih _ _ _ _ h' with h1 | ⟨it2, hmem, hy⟩
      · exact Or.inl h1
      · exact Or.inr ⟨it2, List.mem_cons_of_mem _ hmem, hy⟩
    cases it with
    | stmt f => exact step2 h
    | co_yield l f =>
      simp only [dispatchItems] at h
      split at h
      · exact step h
      · exact step2 h
    | co_yield_continue l =>
      simp only [dispatchItems] at h
      split at h
      · exact step h
      · exact step2 h
    | co_yield_break l =>
      simp only [dispatchItems] at h
      split at h
      · exact step h
      · exact step2 h
    | co_fork l f =>
      simp only [dispatchItems] at h
      split at h
      · exact step h
      · exact step2 h

/-- C5: every exit of control from the region other than an ordinary
suspend leaves `marker == -1` and `co_is_ready` true: normal fall-through
past the last statement sets `-1`, `co_yield break` sets `-1`, and in
general any completed invocation either stopped at an ordinary
`co_yield` / `co_yield continue` of the body or holds marker `-1`. -/
theorem c5_exits_set_ready (p : Int) (fuel : Nat) :
    (∀ (a : List Int) (lab : Int) (t : List Int),
      runItems p fuel (segItems a) lab t = .done (-1) (t ++ a)) ∧
    (∀ (σ : Type) (l : Int) (rest : List (Item σ)) (lab : Int) (s : σ),
      runItems p fuel (Item.co_yield_break l :: rest) lab s =
        .done (-1) s) ∧
    (∀ (σ : Type) (body : List (Item σ)) (ctx : co_ctx_t) (s : σ)
       (l' : Int) (s' : σ),
      co_reenter p fuel body ctx s = RunResult.done l' s' →
      (∃ it ∈ body, OrdinaryYield l' it) ∨
        (l' = -1 ∧ co_is_ready ⟨l'⟩ = true)) := by
  refine ⟨?_, ?_, ?_⟩
  · intro a lab t
    rw [← List.append_nil (segItems a), runItems_segItems]
    rfl
  · intro σ l rest lab s
    rfl
  · intro σ body ctx s l' s' h
    rw [co_reenter] at h
    split at h
    · simp only [RunResult.done.injEq] at h
      exact Or.inr ⟨h.1.symm, by rw [← h.1]; decide⟩
    · split at h
      · rcases runItems_exit_class p fuel _ _ _ _ _ h with h1 | hex
        · exact Or.inr ⟨h1, by rw [h1]; decide⟩
        · exact Or.inl hex
      · rcases dispatchItems_exit_class p fuel _ _ _ _ _ h with h1 | hex
        · exact Or.inr ⟨h1, by rw [h1]; decide⟩
        · exact Or.inl hex

/-- C5 witness: a region terminated by `co_yield break` exits with marker
`-1`, and the classification applies to it. -/
theorem c5_witness :
    (co_reenter 0 0 [Item.co_yield_break 1] (⟨0⟩ : co_ctx_t)
      ([] : List Int) = RunResult.done (-1) []) ∧
    ((∃ it ∈ ([Item.co_yield_break 1] : List (Item (List Int))),
        OrdinaryYield (-1 : Int) it) ∨
      ((-1 : Int) = -1 ∧ co_is_ready ⟨-1⟩ = true)) :=
  ⟨rfl, (c5_exits_set_ready 0 0).2.2 (List Int) [Item.co_yield_break 1]
    ⟨0⟩ [] (-1) [] rfl⟩

theorem co_reenter_dispatch {σ : Type} (p : Int) (fuel : Nat)
    (body : List (Item σ)) (lab : Int) (h1 : lab ≠ -1) (h2 : lab ≠ 0)
    (s : σ) :
    co_reenter p fuel body ⟨lab⟩ s = dispatchItems p fuel body lab s := by
  rw [co_reenter]
  rw [if_neg (by simpa using h1), if_neg (by simpa using h2)]

/-- C9: at a suspend point `co_yield <expr>;`, the marker is set to the
fresh id `N` before the expression is evaluated, so the expression (and
any copy of the context it makes) observes `marker == N`; a later
invocation with `marker == N` resumes at the statement right after the
suspend point. -/
theorem c9_marker_stored_before_expr (p : Int) (fuel : Nat) (a : List Int)
    (n : Int) (f : Int → List Int → List Int)
    (rest : List (Item (List Int))) (t : List Int) (hn : 0 < n) :
    co_reenter p fuel (segItems a ++ Item.co_yield n f :: rest) ⟨0⟩ t =
      .done n (f n (t ++ a)) ∧
    ∀ s : List Int,
      co_reenter p fuel (segItems a ++ Item.co_yield n f :: rest) ⟨n⟩ s =
        runItems p fuel rest n s := by
  constructor
  · rw [co_reenter_zero, runItems_segItems]
    rfl
  · intro s
    rw [co_reenter_dispatch p fuel _ n (by omega) (by omega), segItems,
      dispatchItems_stmtSeg]
    simp [dispatchItems]

/-- C9 witness: the expression at the suspend point records the marker it
observes, which equals the suspend point's own id `5`. -/
theorem c9_witness :
    (0:Int) < 5 ∧
    (co_reenter 0 0
        (segItems [10] ++
          Item.co_yield 5 (fun lab s => s ++ [lab]) :: []) ⟨0⟩ [] =
      .done 5 ((fun lab s => s ++ [lab]) 5 ([] ++ [10])) ∧
    ∀ s : List Int,
      co_reenter 0 0
          (segItems [10] ++
            Item.co_yield 5 (fun lab s => s ++ [lab]) :: []) ⟨5⟩ s =
        runItems 0 0 [] 5 s) :=
  ⟨by decide,
    c9_marker_stored_before_expr 0 0 [10] 5 (fun lab s => s ++ [lab]) []
      [] (by decide)⟩

/-- C3: re-entering with the branch-continuation marker `-(N)-1` (the
copy captured by the `co_fork` expression) transfers control directly to
the statement following the fork point: the statements before it and the
fork expression itself are not executed, the statements after it observe
the branch marker (so `co_is_child()` is true) until the next `co_yield`,
which stores its own positive id and returns control as the main side. -/
theorem c3_branch_continuation_dispatch (p : Int) (fuel : Nat)
    (a b : List Int) (l m : Int)
    (fe g : Int → List (Int × Int) → List (Int × Int))
    (rest : List (Item (List (Int × Int)))) (t : List (Int × Int))
    (hl : 0 < l) (hm : 0 < m) :
    co_reenter p fuel
        (obsSeg a ++
          Item.co_fork l fe :: (obsSeg b ++ Item.co_yield m g :: rest))
        ⟨-l - 1⟩ t =
      .done m (g m (t ++ b.map (fun x => (x, -l - 1)))) ∧
    co_is_child (-l - 1) = true ∧
    (∀ pr ∈ b.map (fun x => (x, -l - 1)), co_is_child pr.2 = true) ∧
    co_is_child m = false := by
  refine ⟨?_, ?_, ?_, ?_⟩
  · rw [co_reenter_dispatch p fuel _ (-l - 1) (by omega) (by omega),
      obsSeg, dispatchItems_stmtSeg]
    simp only [dispatchItems, if_pos rfl]
    rw [runItems_obsSeg]
    rfl
  · simp [co_is_child]; omega
  · intro pr hpr
    rcases List.mem_map.mp hpr with ⟨x, _, hx⟩
    rw [← hx]
    simp [co_is_child]; omega
  · simp [co_is_child]; omega

/-- C3 witness: branch dispatch into `[obs 10; fork 7; obs 20; yield 9]`
with marker `-8` executes only the observation after the fork, as child. -/
theorem c3_witness :
    ((0:Int) < 7 ∧ (0:Int) < 9) ∧
    (co_reenter 0 0
        (obsSeg [10] ++
          Item.co_fork 7 (fun _ s => s) ::
            (obsSeg [20] ++ Item.co_yield 9 (fun _ s => s) :: []))
        ⟨-7 - 1⟩ [] =
      RunResult.done 9 (([] : List (Int × Int)) ++
        ([20] : List Int).map (fun x => (x, (-7 : Int) - 1))) ∧
    co_is_child (-7 - 1) = true ∧
    (∀ pr ∈ ([20] : List Int).map (fun x => (x, (-7 : Int) - 1)),
      co_is_child pr.2 = true) ∧
    co_is_child 9 = false) :=
  ⟨⟨by decide, by decide⟩,
    c3_branch_continuation_dispatch 0 0 [10] [20] 7 9 (fun _ s => s)
      (fun _ s => s) [] [] (by decide) (by decide)⟩

theorem co_fork_loop_never_done {σ : Type} (p l : Int) (f : Int → σ → σ)
    (hp : p ≠ l) : ∀ (fuel : Nat) (lab : Int) (s : σ),
    (co_fork_loop p l f fuel lab s).isDone = false := by
  intro fuel
  induction fuel with
  | zero => intro lab s; rfl
  | succ n ih =>
    intro lab s
    rw [co_fork_loop, if_neg hp]
    exact ih _ _

/-- C2: refuted by the source.  The guard of the `co_fork` loop
(line 222 of `coroutine.h`) reads `_co_label_ == (label)`: it compares the
*pointer* `_co_label_` with the integer label instead of the stored value
`*_co_label_`.  With any pointer value `p ≠ l` the guard never fires, so
on the forward path the invocation never completes — the marker is never
reset to `N` and control never continues past the branch point — and the
branch expression is re-evaluated again (the second time already with
marker `l`), not evaluated exactly once as the claim (and the file's own
doc for `co_fork`) states. -/
theorem c2_fork_guard_compares_pointer {σ : Type} (p : Int) (fuel : Nat)
    (l : Int) (f : Int → σ → σ) (rest : List (Item σ)) (s : σ)
    (hp : p ≠ l) :
    (co_reenter p fuel (Item.co_fork l f :: rest) ⟨0⟩ s).isDone = false ∧
    ∀ fuel' : Nat,
      co_fork_loop p l f (fuel' + 2) (-l - 1) s =
        co_fork_loop p l f fuel' l (f l (f (-l - 1) s)) := by
  constructor
  · rw [co_reenter_zero]
    simp only [runItems]
    cases hf : co_fork_loop p l f fuel (-l - 1) s with
    | outOfFuel s' => rfl
    | done lab' s' =>
      have hnever := co_fork_loop_never_done p l f hp fuel (-l - 1) s
      rw [hf] at hnever
      simp [RunResult.isDone] at hnever
  · intro fuel'
    show co_fork_loop p l f (fuel' + 1 + 1) (-l - 1) s = _
    rw [co_fork_loop, if_neg hp, co_fork_loop, if_neg hp]

/-- C2 witness: with label `1` and pointer value `0`, the invocation of
`[co_fork 1 expr]` from a fresh context never completes. -/
theorem c2_witness :
    (0 : Int) ≠ 1 ∧
    ((co_reenter 0 5 [Item.co_fork 1 (fun _ s => s)] (⟨0⟩ : co_ctx_t)
        ([] : List Int)).isDone = false ∧
      ∀ fuel' : Nat,
        co_fork_loop 0 1 (fun _ (s : List Int) => s) (fuel' + 2)
            (-1 - 1) [] =
          co_fork_loop 0 1 (fun _ (s : List Int) => s) fuel' 1 []) :=
  ⟨by decide,
    c2_fork_guard_compares_pointer 0 5 1 (fun _ s => s) [] []
      (by decide)⟩

/-- C7 counterexample: the claim says `is_branch_side` is false at every
point of an invocation that did not enter via a branch-continuation
marker.  But an invocation entered with `marker == 0` that reaches
`co_fork` evaluates the fork expression with the stored label `-2`, where
`co_is_child()` is true (the recorded observations are `[-2, 1]`: the
expression even runs twice, by the guard bug of line 222). -/
theorem c7_counterexample :
    co_reenter 0 2 [Item.co_fork 1 (fun lab s => s ++ [lab])]
        (⟨0⟩ : co_ctx_t) ([] : List Int) =
      RunResult.outOfFuel [-2, 1] ∧
    co_is_child ((⟨0⟩ : co_ctx_t)).label = false ∧
    co_is_child (-2) = true := by
  refine ⟨?_, ?_, ?_⟩ <;> decide

/-- Does an item carry only positive yield labels?  (In the source every
label is `__COUNTER__ + 1` or `__LINE__`, hence positive.) -/
def PosLabels {σ : Type} : Item σ → Prop
  | .co_yield l _ => 0 < l
  | .co_yield_continue l => 0 < l
  | _ => True

/-- C7 amended: `is_branch_side` is true between a branch-continuation
dispatch and the next suspend point, and *also* while the branch
expression of `co_fork` is being evaluated (the expression runs as the
branch side even in a main-side invocation); every completed invocation
stores a marker that is not less than `-1` (given positive yield labels),
so after any suspend control is the main side. -/
theorem c7_side_flag_scope (p : Int) (fuel : Nat) :
    (∀ (σ : Type) (body : List (Item σ)) (ctx : co_ctx_t) (s : σ)
       (l' : Int) (s' : σ),
      (∀ it ∈ body, PosLabels it) →
      co_reenter p fuel body ctx s = RunResult.done l' s' →
      co_is_child l' = false) ∧
    (∀ (σ : Type) (l : Int) (f : Int → σ → σ) (s : σ) (fuel' : Nat),
      p ≠ l → 0 < l →
      co_fork_loop p l f (fuel' + 1) (-l - 1) s =
        co_fork_loop p l f fuel' l (f (-l - 1) s) ∧
      co_is_child (-l - 1) = true) ∧
    (∀ (b : List Int) (l m : Int)
       (fe g : Int → List (Int × Int) → List (Int × Int))
       (rest : List (Item (List (Int × Int)))) (t : List (Int × Int)),
      0 < l → 0 < m →
      co_reenter p fuel
          (Item.co_fork l fe :: (obsSeg b ++ Item.co_yield m g :: rest))
          ⟨-l - 1⟩ t =
        .done m (g m (t ++ b.map (fun x => (x, -l - 1)))) ∧
      (∀ pr ∈ b.map (fun x => (x, -l - 1)), co_is_child pr.2 = true) ∧
      co_is_child m = false) := by
  refine ⟨?_, ?_, ?_⟩
  · intro σ body ctx s l' s' hpos h
    rw [co_reenter] at h
    have hclass : l' = -1 ∨ ∃ it ∈ body, OrdinaryYield l' it := by
      split at h
      · simp only [RunResult.done.injEq] at h
        exact Or.inl h.1.symm
      · split at h
        · exact runItems_exit_class p fuel _ _ _ _ _ h
        · exact dispatchItems_exit_class p fuel _ _ _ _ _ h
    rcases hclass with h1 | ⟨it, hmem, hy⟩
    · rw [h1]; decide
    · have hp := hpos it hmem
      cases it with
      | co_yield l f =>
        rw [show l' = l from hy.symm]
        simp only [PosLabels] at hp
        simp [co_is_child]; omega
      | co_yield_continue l =>
        rw [show l' = l from hy.symm]
        simp only [PosLabels] at hp
        simp [co_is_child]; omega
      | stmt f => exact absurd hy (by simp [OrdinaryYield])
      | co_yield_break l => exact absurd hy (by simp [OrdinaryYield])
      | co_fork l f => exact absurd hy (by simp [OrdinaryYield])
  · intro σ l f s fuel' hp hl
    constructor
    · rw [co_fork_loop, if_neg hp]
    · simp [co_is_child]; omega
  · intro b l m fe g rest t hl hm
    refine ⟨?_, ?_, ?_⟩
    · rw [co_reenter_dispatch p fuel _ (-l - 1) (by omega) (by omega)]
      simp only [dispatchItems, if_pos rfl]
      rw [runItems_obsSeg]
      rfl
    · intro pr hpr
      rcases List.mem_map.mp hpr with ⟨x, _, hx⟩
      rw [← hx]
      simp [co_is_child]; omega
    · simp [co_is_child]; omega

/-- C7 amended witness: each part of the amended property instantiated at
a concrete region. -/
theorem c7_witness :
    ((∀ it ∈ ([] : List (Item (List Int))), PosLabels it) ∧
      co_reenter 0 1 ([] : List (Item (List Int))) ⟨0⟩ [] =
        RunResult.done (-1) [] ∧
      co_is_child (-1) = false) ∧
    ((0 : Int) ≠ 1 ∧ (0 : Int) < 1 ∧
      (co_fork_loop 0 1 (fun _ (s : List Int) => s) (0 + 1) (-1 - 1) [] =
          co_fork_loop 0 1 (fun _ (s : List Int) => s) 0 1 [] ∧
        co_is_child (-1 - 1) = true)) ∧
    ((0 : Int) < 1 ∧ (0 : Int) < 3 ∧
      (co_reenter 0 1
          (Item.co_fork 1 (fun _ s => s) ::
            (obsSeg [5] ++ Item.co_yield 3 (fun _ s => s) :: []))
          ⟨-1 - 1⟩ [] =
        RunResult.done 3 (([] : List (Int × Int)) ++
          ([5] : List Int).map (fun x => (x, (-1 : Int) - 1))) ∧
      (∀ pr ∈ ([5] : List Int).map (fun x => (x, (-1 : Int) - 1)),
        co_is_child pr.2 = true) ∧
      co_is_child 3 = false)) :=
  ⟨⟨by simp, rfl,
      (c7_side_flag_scope 0 1).1 (List Int) [] ⟨0⟩ [] (-1) [] (by simp)
        rfl⟩,
    ⟨by decide, by decide,
      (c7_side_flag_scope 0 1).2.1 (List Int) 1 (fun _ s => s) [] 0
        (by decide) (by decide)⟩,
    ⟨by decide, by decide,
      (c7_side_flag_scope 0 1).2.2 [5] 1 3 (fun _ s => s) (fun _ s => s)
        [] [] (by decide) (by decide)⟩⟩
